import Mathlib

/-!
Verification of the e-mail field-extraction engine of `ynab-sync`
(`src/index.ts`): chunk accumulation and normalization
(`GenericStringParser.text`), header/value pairing
(`GenericStringPairParser.completeTextChunk`), the per-vendor extraction
rules (`BOAEmailParser.completeTextChunk`, `ChaseEmailParser.completeTextPair`)
and final validation (`EmailParser.result`).

Strings are embedded as Lean `String`/`List Char`; the JavaScript regular
expressions used by the source are embedded as executable matchers over
`List Char`, faithful to JS leftmost-match semantics on the concrete
patterns involved (the equivalences with backtracking are noted at each
definition).  `parseFloat` on a matched `\d+\.\d{2}` decimal is embedded as
its exact rational value, and `Math.round` as floor(x + 1/2) (JS rounds
half toward positive infinity); `Date.parse` is a platform function and is
embedded as an explicit oracle parameter `p : String → Option Int`
(`none` = NaN), with a concrete calendar-date-code model used for closed
evaluations.
-/

namespace YnabSync

/-! ### Character classes (JS `\d`, `[A-Za-z]`, `\w`, whitespace) -/

/-- JS word character (`\w` for the `\b` boundary): ASCII letter, digit or underscore. -/
def isWordChar (c : Char) : Bool := c.isAlpha || c.isDigit || c = '_'

/-- The whitespace characters removed by JS `String.prototype.trim` that can
occur in the ASCII range. -/
def jsWs (c : Char) : Bool :=
  c = ' ' || c = '\t' || c = '\n' || c = '\r' || c = '\x0b' || c = '\x0c'

/-! ### Generic list matching primitives -/

/-- `begWith pat l`: `pat` is an initial segment of `l`. -/
def begWith : List Char → List Char → Bool
  | [], _ => true
  | _ :: _, [] => false
  | p :: ps, c :: cs => p = c && begWith ps cs

/-- Consume the literal `pat` from the front of `l`, returning the rest. -/
def dropLit : List Char → List Char → Option (List Char)
  | [], l => some l
  | _ :: _, [] => none
  | p :: ps, c :: cs => if p = c then dropLit ps cs else none

/-- Consume exactly `n` characters satisfying `pch` (JS `{n}` quantifier). -/
def takeN (pch : Char → Bool) : Nat → List Char → Option (List Char × List Char)
  | 0, l => some ([], l)
  | _ + 1, [] => none
  | n + 1, c :: cs =>
    if pch c then (takeN pch n cs).map (fun pr => (c :: pr.1, pr.2)) else none

/-- Greedy `\d{1,2}`.  In the source's regexes this quantifier is always
followed by a literal starting with a non-digit (`,` or `:`), so the
greedy-without-backtracking reading is equivalent to full backtracking. -/
def digits12 : List Char → Option (List Char × List Char)
  | [] => none
  | c :: cs =>
    if c.isDigit then
      match cs with
      | c2 :: cs2 => if c2.isDigit then some ([c, c2], cs2) else some ([c], cs)
      | [] => some ([c], [])
    else none

/-- Maximal run of ASCII letters at the front of the list. -/
def alphaSpan : List Char → List Char × List Char
  | [] => ([], [])
  | c :: cs =>
    if c.isAlpha then
      let pr := alphaSpan cs
      (c :: pr.1, pr.2)
    else ([], c :: cs)

/-- Maximal run of digits at the front of the list (greedy `\d+`). -/
def digitSpan : List Char → List Char × List Char
  | [] => ([], [])
  | c :: cs =>
    if c.isDigit then
      let pr := digitSpan cs
      (c :: pr.1, pr.2)
    else ([], c :: cs)

/-- Numeric value of a digit string (most significant first). -/
def digitsToNat (l : List Char) : Nat :=
  l.foldl (fun acc c => 10 * acc + (c.toNat - '0'.toNat)) 0

/-- Index of the first occurrence of `pat` in `l` (JS `String.prototype.indexOf`
returning `-1` embedded as `none`). -/
def indexOfSub (pat : List Char) : List Char → Option Nat
  | [] => if pat = [] then some 0 else none
  | c :: cs =>
    if begWith pat (c :: cs) then some 0
    else (indexOfSub pat cs).map (· + 1)

/-- No adjacent `'a','t'` pair occurs in the list (helper for locating the
first `"at"` occurrence inside a regex match). -/
def noAT : List Char → Bool
  | [] => true
  | c :: cs => (!(c == 'a' && cs.head? == some 't')) && noAT cs

/-! ### The amount regex `/\$?(\d+\.\d{2})/`

Matching at one position: optionally consume `$`, then a maximal digit run
(backtracking the greedy `\d+` cannot help, since a shortened run is
followed by a digit, never by `.`), then `.`, then two digits.  The
captured group is the digit run, the dot and the two fraction digits; the
optional `$` never contributes to the capture. -/

/-- `(\d+\.\d{2})` at the current position: returns (integer digits,
fraction digits). -/
def decimalAt (l : List Char) : Option (List Char × List Char) :=
  match digitSpan l with
  | ([], _) => none
  | (d, '.' :: a :: b :: _) => if a.isDigit && b.isDigit then some (d, [a, b]) else none
  | (_, _) => none

/-- `\$?(\d+\.\d{2})` anchored at the current position. -/
def amountAt : List Char → Option (List Char × List Char)
  | '$' :: rest => decimalAt rest
  | l => decimalAt l

/-- Leftmost match of `/\$?(\d+\.\d{2})/`: the capture of the first position
at which the pattern matches (JS `String.prototype.match`). -/
def firstAmount : List Char → Option (List Char × List Char)
  | [] => none
  | c :: cs =>
    match amountAt (c :: cs) with
    | some r => some r
    | none => firstAmount cs

/-- Exact rational value of the matched decimal `d  "."  f` (the value
`parseFloat` approximates; the decimals reaching this function are exactly
representable at milliunit scale, so the idealization is lossless for the
stored integer). -/
def decRat (d f : List Char) : ℚ :=
  (digitsToNat d : ℚ) + (digitsToNat f : ℚ) / 100

/-- JS `Math.round`: nearest integer, ties toward positive infinity. -/
def mathRound (q : ℚ) : ℤ := ⌊q + 1 / 2⌋

/-! ### The BOA account regex `/ending in (\d{4})/` -/

/-- The pattern anchored at the current position. -/
def endingInAt (l : List Char) : Option (List Char) :=
  match dropLit "ending in ".data l with
  | some r =>
    match takeN Char.isDigit 4 r with
    | some (ds, _) => some ds
    | none => none
  | none => none

/-- Leftmost match of `/ending in (\d{4})/`, returning the captured digits. -/
def findEndingIn : List Char → Option (List Char)
  | [] => none
  | c :: cs =>
    match endingInAt (c :: cs) with
    | some ds => some ds
    | none => findEndingIn cs

/-! ### The Chase account regex `/\(\.\.\.(\d{4})\)/` -/

/-- The pattern anchored at the current position. -/
def acctAt (l : List Char) : Option (List Char) :=
  match dropLit "(...".data l with
  | some r =>
    match takeN Char.isDigit 4 r with
    | some (ds, ')' :: _) => some ds
    | _ => none
  | none => none

/-- Leftmost match of `/\(\.\.\.(\d{4})\)/`, returning the captured digits. -/
def findAcct : List Char → Option (List Char)
  | [] => none
  | c :: cs =>
    match acctAt (c :: cs) with
    | some ds => some ds
    | none => findAcct cs

/-! ### The Chase date regex
`/\b([A-Za-z]{3}) (\d{1,2}), (\d{4}) at (\d{1,2}):(\d{2}) (AM|PM) ([A-Za-z]{2,4})\b/`

The trailing `[A-Za-z]{2,4}\b` is equivalent to: the maximal letter run at
that point has length between 2 and 4 and is followed by a non-word
character or the end of the input (any shorter backtracked run is followed
by a letter, so `\b` fails there). -/

/-- `\b` against the character following the zone run. -/
def boundaryAfter : List Char → Bool
  | [] => true
  | c :: _ => !(isWordChar c)

/-- `(AM|PM)` anchored at the current position: the alternation tries
`AM` first, then `PM`. -/
def ampmAt (l : List Char) : Option (List Char × List Char) :=
  match dropLit "AM".data l with
  | some r => some ("AM".data, r)
  | none =>
    match dropLit "PM".data l with
    | some r => some ("PM".data, r)
    | none => none

/-- The date pattern anchored at the current position, returning the full
matched text (JS `match[0]`). -/
def dateMatchAt (l : List Char) : Option (List Char) :=
  match takeN Char.isAlpha 3 l with
  | none => none
  | some (mon, r1) =>
  match dropLit [' '] r1 with
  | none => none
  | some r2 =>
  match digits12 r2 with
  | none => none
  | some (d, r3) =>
  match dropLit [',', ' '] r3 with
  | none => none
  | some r4 =>
  match takeN Char.isDigit 4 r4 with
  | none => none
  | some (y, r5) =>
  match dropLit " at ".data r5 with
  | none => none
  | some r6 =>
  match digits12 r6 with
  | none => none
  | some (hh, r7) =>
  match dropLit [':'] r7 with
  | none => none
  | some r8 =>
  match takeN Char.isDigit 2 r8 with
  | none => none
  | some (mi, r9) =>
  match dropLit [' '] r9 with
  | none => none
  | some r10 =>
  match ampmAt r10 with
  | none => none
  | some (ap, r11) =>
  match dropLit [' '] r11 with
  | none => none
  | some r12 =>
  if 2 ≤ (alphaSpan r12).1.length && (alphaSpan r12).1.length ≤ 4
      && boundaryAfter (alphaSpan r12).2 then
    some (mon ++ ' ' :: (d ++ ',' :: (' ' :: (y ++ ' ' :: ('a' :: ('t' :: (' ' ::
      (hh ++ ':' :: (mi ++ ' ' :: (ap ++ ' ' :: (alphaSpan r12).1))))))))))
  else none

/-- Scan for the leftmost match of the date regex.  `prev` is the character
before the scan position, for the leading `\b`. -/
def findDate (prev : Option Char) : List Char → Option (List Char)
  | [] => none
  | c :: cs =>
    match (if (match prev with
               | none => true
               | some pc => !(isWordChar pc)) then dateMatchAt (c :: cs) else none) with
    | some m => some m
    | none => findDate (some c) cs

/-- `dateTime.substring(0, dateTime.indexOf("at"))` from the source:
the part of the matched text before its first occurrence of `"at"`
(`indexOf` returning `-1` makes the substring empty). -/
def madeOnDatePart (m0 : List Char) : List Char :=
  match indexOfSub ['a', 't'] m0 with
  | some i => m0.take i
  | none => []

/-! ### Chunk normalization (`GenericStringParser.text`) -/

/-- `replaceAll("=\r\n", "")`: delete every occurrence of the soft
line-break sequence, scanning left to right. -/
def removeSoftBreaks : List Char → List Char
  | '=' :: '\r' :: '\n' :: cs => removeSoftBreaks cs
  | c :: cs => c :: removeSoftBreaks cs
  | [] => []

/-- Position after the first `'>'`, if any. -/
def dropThroughGt : List Char → Option (List Char)
  | [] => none
  | c :: cs => if c = '>' then some cs else dropThroughGt cs

theorem dropThroughGt_length :
    ∀ l r : List Char, dropThroughGt l = some r → r.length < l.length := by
  intro l
  induction l with
  | nil => intro r h; simp [dropThroughGt] at h
  | cons c cs ih =>
    intro r h
    rw [dropThroughGt] at h
    by_cases hc : c = '>'
    · rw [if_pos hc] at h
      cases h
      simp
    · rw [if_neg hc] at h
      have := ih r h
      simp only [List.length_cons]
      omega

/-- `replaceAll(/<=[\s\S]*?>/g, "")`, fuel-indexed so that the recursion is
structural and kernel-reducible (every recursive call strictly shortens
the list — a match always consumes the `<`, the `=` and at least the `>` —
so fuel `l.length` is always enough): repeatedly delete from a `<=`
through the next `>`; a `<=` with no later `>` cannot match (and then no
later occurrence can match either, as any match needs a `>`). -/
def stripTagsF : Nat → List Char → List Char
  | _, [] => []
  | 0, l => l
  | fuel + 1, '<' :: '=' :: cs =>
    (match dropThroughGt cs with
     | some rest => stripTagsF fuel rest
     | none => '<' :: '=' :: cs)
  | fuel + 1, c :: cs => c :: stripTagsF fuel cs

def stripTags (l : List Char) : List Char := stripTagsF l.length l


/-- JS `trim` restricted to the source's ASCII content. -/
def jsTrim (l : List Char) : List Char :=
  ((l.dropWhile jsWs).reverse.dropWhile jsWs).reverse

/-- The normalization applied by `GenericStringParser.text` when a node's
final fragment arrives: drop `=\r\n` sequences, strip `<=...>` tag
remnants, trim surrounding whitespace. -/
def normalizeChunk (s : String) : String :=
  String.mk (jsTrim (stripTags (removeSoftBreaks s.data)))

/-! ### Parser state and validation (`EmailParser`) -/

/-- A JS `Date` object: `new Date(t)` for a finite timestamp carries the
time value, `new Date(NaN)` is the Invalid Date object (`time := none`).
Either way the object itself is truthy. -/
structure JSDate where
  time : Option Int
deriving DecidableEq

/-- The mutable fields of `EmailParser` (`undefined` = `none`). -/
structure ParseState where
  amount : Option ℤ := none
  date : Option JSDate := none
  description : Option String := none
  account : Option String := none
deriving DecidableEq

/-- The output record (`interface Entry`). -/
structure Entry where
  amount : ℤ
  title : String
  account : String
  postedDate : JSDate
deriving DecidableEq

/-- JS truthiness of `this.amount : number|undefined` (`undefined` and `0`
are falsy; the embedded amounts are exact integers, `-0` becoming `0`). -/
def truthyAmount : Option ℤ → Bool
  | none => false
  | some a => a != 0

/-- JS truthiness of a `string|undefined` field (`undefined` and `""` falsy). -/
def truthyStr : Option String → Bool
  | none => false
  | some s => s != ""

/-- JS truthiness of `this.date : Date|undefined`: any `Date` object is
truthy, Invalid Date included. -/
def truthyDate : Option JSDate → Bool
  | none => false
  | some _ => true

/-- `EmailParser.result`: an `Entry` exactly when all four fields are
truthy, otherwise `undefined` (the incomplete outcome); never throws. -/
def result (st : ParseState) : Option Entry :=
  if truthyAmount st.amount && truthyStr st.account && truthyDate st.date
      && truthyStr st.description then
    some { amount := st.amount.getD 0
           title := st.description.getD ""
           account := st.account.getD ""
           postedDate := st.date.getD ⟨none⟩ }
  else none

/-! ### The BOA rule set (`BOAEmailParser.completeTextChunk`)

The `Date.parse` platform function is an oracle parameter
`p : String → Option Int` (`none` embeds NaN).  The source's guard
`if (dateNum && dateNum != Number.NaN)` reduces to truthiness of
`dateNum`, since `x != NaN` is true for every `x`; a parse result of
exactly `0` is therefore treated like a failure and falls through to the
description rule. -/

/-- The description fallback `if (!this.description) this.description = chunk`:
overwrites when the field is `undefined` or the empty string. -/
def descFallback (st : ParseState) (chunk : String) : ParseState :=
  if truthyStr st.description then st else { st with description := some chunk }

/-- One completed chunk through the BOA rule blocks, in source order:
amount, account, date, description. -/
def boaStep (p : String → Option Int) (st : ParseState) (chunk : String) :
    ParseState :=
  match firstAmount chunk.data with
  | some (d, f) => { st with amount := some (mathRound (decRat d f * (-1000))) }
  | none =>
    match findEndingIn chunk.data with
    | some ds => { st with account := some (String.mk ds) }
    | none =>
      match p chunk with
      | some t => if t ≠ 0 then { st with date := some ⟨some t⟩ } else descFallback st chunk
      | none => descFallback st chunk

/-- A whole BOA parse at chunk level: fold the rule step over the completed
chunks, starting from the empty record. -/
def boaRun (p : String → Option Int) (cs : List String) : ParseState :=
  cs.foldl (boaStep p) {}

/-! ### The Chase rule set (`ChaseEmailParser.completeTextPair`) -/

/-- The source guard `if ("" in [header, content]) return;` uses the JS
`in` operator, which tests property *keys* of the array `[header, content]`
(own keys `"0"`, `"1"`, `"length"` plus inherited `Array.prototype`
members).  The empty string is never a key, so the guard is constantly
false whatever the two strings are. -/
def jsEmptyIn (_header _content : String) : Bool := false

/-- One `(header, content)` pair through the Chase switch. -/
def chaseStep (p : String → Option Int) (st : ParseState)
    (header content : String) : ParseState :=
  if jsEmptyIn header content then st
  else if header = "Account ending in" then
    match findAcct content.data with
    | some ds => { st with account := some (String.mk ds) }
    | none => st
  else if header = "Made on" then
    match findDate none content.data with
    | some m0 => { st with date := some ⟨p (String.mk (madeOnDatePart m0))⟩ }
    | none => st
  else if header = "Description" then { st with description := some content }
  else if header = "Amount" then
    match firstAmount content.data with
    | some (d, f) => { st with amount := some (mathRound (decRat d f * (-1000))) }
    | none => st
  else st

/-- The pairing layer state (`GenericStringPairParser`): the retained
previous chunk plus the record fields. -/
structure PairState where
  last_message : String := ""
  st : ParseState := {}
deriving DecidableEq

/-- `GenericStringPairParser.completeTextChunk`: dispatch
`(last_message, chunk)` and then retain `chunk` unconditionally. -/
def chaseChunkStep (p : String → Option Int) (ps : PairState) (chunk : String) :
    PairState :=
  { last_message := chunk, st := chaseStep p ps.st ps.last_message chunk }

/-- A whole Chase parse at chunk level. -/
def chaseRun (p : String → Option Int) (cs : List String) : PairState :=
  cs.foldl (chaseChunkStep p) {}

/-- A Chase parse at pair level (for claims quantifying over pair
sequences directly). -/
def chasePairsRun (p : String → Option Int) (st : ParseState)
    (ps : List (String × String)) : ParseState :=
  ps.foldl (fun s q => chaseStep p s q.1 q.2) st

/-! ### The chunk accumulator (`GenericStringParser.text`) -/

/-- The buffered `working_text`. -/
structure AccumState where
  working_text : String := ""
deriving DecidableEq

/-- One `Text` event: `(content, lastInTextNode)`.  Appends to the buffer;
on the node's final fragment, normalizes, emits the chunk and clears the
buffer. -/
def accumStep (a : AccumState) (frag : String × Bool) :
    AccumState × Option String :=
  let w := a.working_text ++ frag.1
  if frag.2 then (⟨""⟩, some (normalizeChunk w)) else (⟨w⟩, none)

/-- Run the accumulator over a fragment stream, collecting the emitted
chunks in order. -/
def accumRun : AccumState → List (String × Bool) → AccumState × List String
  | a, [] => (a, [])
  | a, f :: fs =>
    let (a', e) := accumStep a f
    let (a'', es) := accumRun a' fs
    (a'', e.toList ++ es)

/-- The fragment events of one node whose contents are `cs`: every fragment
unmarked except the last. -/
def nodeFrags : List String → List (String × Bool)
  | [] => []
  | [c] => [(c, true)]
  | c :: cs => (c, false) :: nodeFrags cs

/-- Concatenation of a node's fragment contents in arrival order. -/
def concatAll (l : List String) : String := l.foldl (· ++ ·) ""

/-! ### A concrete model of the `Date.parse` platform function

`Date.parse` is a host builtin, not code of this repository; the general
theorems quantify over an arbitrary oracle.  For closed evaluations this
model reproduces V8's behavior on the string shapes the source feeds it,
at calendar-date granularity: a string `"Mon D, YYYY"` (optional trailing
spaces) with a recognized month abbreviation parses to an injective
positive date code, everything else — in particular any string with an
unrecognized month word, prose, or the empty string — is NaN (`none`). -/

def monthNum : String → Option Nat
  | "Jan" => some 1
  | "Feb" => some 2
  | "Mar" => some 3
  | "Apr" => some 4
  | "May" => some 5
  | "Jun" => some 6
  | "Jul" => some 7
  | "Aug" => some 8
  | "Sep" => some 9
  | "Oct" => some 10
  | "Nov" => some 11
  | "Dec" => some 12
  | _ => none

/-- The recognized month abbreviations. -/
def monthAbbrevs : List String :=
  ["Jan", "Feb", "Mar", "Apr", "May", "Jun",
   "Jul", "Aug", "Sep", "Oct", "Nov", "Dec"]

/-- Injective code of a calendar date, used as the model's time value. -/
def dateCode (y m d : Nat) : ℤ := (y * 10000 + m * 100 + d : Nat)

def jsDateParseModel (s : String) : Option Int :=
  match s.data with
  | m1 :: m2 :: m3 :: ' ' :: rest =>
    match monthNum (String.mk [m1, m2, m3]) with
    | some mo =>
      match digits12 rest with
      | some (d, ',' :: ' ' :: r2) =>
        match takeN Char.isDigit 4 r2 with
        | some (y, r3) =>
          if r3.all (· = ' ') then some (dateCode (digitsToNat y) mo (digitsToNat d))
          else none
        | none => none
      | _ => none
    | none => none
  | _ => none

/-- Rounding half away from zero on an exact rational: the rounding the
specification prescribes for the milliunit conversion. -/
def roundHalfAway (q : ℚ) : ℤ := if 0 ≤ q then ⌊q + 1 / 2⌋ else -⌊-q + 1 / 2⌋

/-! ## Theorems -/

theorem mathRound_intCast (z : ℤ) : mathRound (z : ℚ) = z := by
  unfold mathRound
  rw [Int.floor_int_add]
  have : ⌊(1 / 2 : ℚ)⌋ = 0 := by
    rw [Int.floor_eq_zero_iff]
    constructor <;> norm_num
  omega

theorem roundHalfAway_intCast (z : ℤ) : roundHalfAway (z : ℚ) = z := by
  unfold roundHalfAway
  by_cases hz : (0 : ℚ) ≤ (z : ℚ)
  · rw [if_pos hz]
    rw [Int.floor_int_add]
    have h0 : ⌊(1 / 2 : ℚ)⌋ = 0 := by
      rw [Int.floor_eq_zero_iff]; constructor <;> norm_num
    omega
  · rw [if_neg hz]
    have : (-(z : ℚ)) = (((-z : ℤ)) : ℚ) := by rw [Int.cast_neg]
    rw [this, Int.floor_int_add]
    have h0 : ⌊(1 / 2 : ℚ)⌋ = 0 := by
      rw [Int.floor_eq_zero_iff]; constructor <;> norm_num
    omega

/-- The exact decimal value scaled by `-1000` is an integer: the matched
text has exactly two fraction digits. -/
theorem decRat_scale (d f : List Char) :
    decRat d f * (-1000)
      = ((-(1000 * (digitsToNat d : ℤ) + 10 * (digitsToNat f : ℤ)) : ℤ) : ℚ) := by
  unfold decRat
  push_cast
  ring

theorem mathRound_amount (d f : List Char) :
    mathRound (decRat d f * (-1000))
      = -(1000 * (digitsToNat d : ℤ) + 10 * (digitsToNat f : ℤ)) := by
  rw [decRat_scale, mathRound_intCast]

theorem roundHalfAway_amount (d f : List Char) :
    roundHalfAway (decRat d f * (-1000))
      = -(1000 * (digitsToNat d : ℤ) + 10 * (digitsToNat f : ℤ)) := by
  rw [decRat_scale, roundHalfAway_intCast]

/-- C1: for every chunk matching the amount pattern, the stored amount is
`round(decimal * -1000)` computed exactly and agreeing with rounding half
away from zero on the exact decimal value, in both the unpaired (BOA)
chunk rule and the label-paired (Chase) `"Amount"` rule. -/
theorem amount_rule_exact (p : String → Option Int) (st : ParseState)
    (chunk : String) (d f : List Char)
    (h : firstAmount chunk.data = some (d, f)) :
    (boaStep p st chunk).amount = some (roundHalfAway (decRat d f * (-1000)))
      ∧ (chaseStep p st "Amount" chunk).amount
          = some (roundHalfAway (decRat d f * (-1000)))
      ∧ roundHalfAway (decRat d f * (-1000))
          = -(1000 * (digitsToNat d : ℤ) + 10 * (digitsToNat f : ℤ)) := by
  have hmr : mathRound (decRat d f * (-1000)) = roundHalfAway (decRat d f * (-1000)) := by
    rw [mathRound_amount, roundHalfAway_amount]
  refine ⟨?_, ?_, roundHalfAway_amount d f⟩
  · unfold boaStep
    rw [h, ← hmr]
  · unfold chaseStep
    rw [h]
    simp only [jsEmptyIn, Bool.false_eq_true, if_false]
    rw [if_neg (by decide : ¬("Amount" : String) = "Account ending in"),
        if_neg (by decide : ¬("Amount" : String) = "Made on"),
        if_neg (by decide : ¬("Amount" : String) = "Description"),
        if_pos trivial]
    show some (mathRound (decRat d f * (-1000))) = _
    rw [hmr]

/-- Witness for C1: chunk `"$23.45"` stores `-23450` and chunk `"5.72"`
stores `-5720`, in both layouts. -/
theorem amount_rule_exact_witness :
    (boaStep jsDateParseModel {} "$23.45").amount = some (-23450)
      ∧ (chaseStep jsDateParseModel {} "Amount" "$23.45").amount = some (-23450)
      ∧ (boaStep jsDateParseModel {} "5.72").amount = some (-5720)
      ∧ (chaseStep jsDateParseModel {} "Amount" "5.72").amount = some (-5720) := by
  have h1 := amount_rule_exact jsDateParseModel {} "$23.45" ['2', '3'] ['4', '5'] rfl
  have h2 := amount_rule_exact jsDateParseModel {} "5.72" ['5'] ['7', '2'] rfl
  refine ⟨?_, ?_, ?_, ?_⟩
  · rw [h1.1, h1.2.2]; decide
  · rw [h1.2.1, h1.2.2]; decide
  · rw [h2.1, h2.2.2]; decide
  · rw [h2.2.1, h2.2.2]; decide

/-- C2: `result` yields an `Entry` exactly when all four fields hold truthy
values: a defined non-zero amount, defined non-empty account and
description strings, and a defined date object; otherwise it yields the
incomplete outcome `none` (and, being a total function, never throws). -/
theorem result_complete_iff (st : ParseState) :
    result st ≠ none ↔
      ((∃ a, st.amount = some a ∧ a ≠ 0)
        ∧ (∃ s, st.account = some s ∧ s ≠ "")
        ∧ (∃ dd, st.date = some dd)
        ∧ (∃ t, st.description = some t ∧ t ≠ "")) := by
  obtain ⟨am, da, de, ac⟩ := st
  cases am <;> cases da <;> cases de <;> cases ac <;>
    simp [result, truthyAmount, truthyStr, truthyDate, bne_iff_ne]

/-- Witness for C2: a fully populated record succeeds; zeroing just the
amount, or emptying just the account or description, each yields the
incomplete outcome. -/
theorem result_complete_iff_witness :
    result ⟨some (-4500), some ⟨some 20240715⟩, some "Coffee Shop", some "1234"⟩ ≠ none
      ∧ result ⟨some 0, some ⟨some 20240715⟩, some "Coffee Shop", some "1234"⟩ = none
      ∧ result ⟨some (-4500), some ⟨some 20240715⟩, some "Coffee Shop", some ""⟩ = none
      ∧ result ⟨some (-4500), some ⟨some 20240715⟩, some "", some "1234"⟩ = none := by
  refine ⟨?_, rfl, rfl, rfl⟩
  exact (result_complete_iff _).mpr
    ⟨⟨-4500, rfl, by decide⟩, ⟨"1234", rfl, by decide⟩, ⟨⟨some 20240715⟩, rfl⟩,
     ⟨"Coffee Shop", rfl, by decide⟩⟩

/-- C3 (code bug): a whitespace-only chunk normalizes to `""`, yet the
pairing layer still dispatches it and retains it as the new preceding
chunk — the guard `if ("" in [header, content])` never fires.  After
chunks `["Amount", "", "$5.00"]` the empty chunk has replaced
`last_message`, `"$5.00"` is paired with `""` instead of `"Amount"`, and
the amount stays unset; without the whitespace chunk the amount is set
to `-5000`. -/
theorem whitespace_chunk_advances_state_eval :
    normalizeChunk " " = ""
      ∧ (chaseRun jsDateParseModel ["Amount", ""]).last_message = ""
      ∧ (chaseRun jsDateParseModel ["Amount", "", "$5.00"]).st.amount = none
      ∧ (chaseRun jsDateParseModel ["Amount", "$5.00"]).st.amount = some (-5000) := by
  refine ⟨by decide, by decide, by decide, ?_⟩
  show some (mathRound (decRat ['5'] ['0', '0'] * (-1000))) = some (-5000)
  rw [mathRound_amount]
  decide

/-- C4 (code bug): in the Chase layout a `"Made on"` value that matches the
compound regex but whose date portion `Date.parse` cannot interpret does
not leave the date unset: the source stores `new Date(NaN)`, an Invalid
Date object (`⟨none⟩`), where the field was previously `none`. -/
theorem made_on_stores_invalid_date_eval :
    jsDateParseModel "Xyz 15, 2024 " = none
      ∧ ({} : ParseState).date = none
      ∧ (chaseStep jsDateParseModel {} "Made on" "Xyz 15, 2024 at 7:02 PM ET").date
          = some ⟨none⟩ := by
  exact ⟨rfl, rfl, rfl⟩

/-! ### C10: the Chase description rule is last-writer-wins -/

theorem chaseStep_desc_set (p : String → Option Int) (st : ParseState) (v : String) :
    (chaseStep p st "Description" v).description = some v := rfl

theorem chaseStep_desc_of_ne (p : String → Option Int) (st : ParseState)
    (header content : String) (h : header ≠ "Description") :
    (chaseStep p st header content).description = st.description := by
  unfold chaseStep
  simp only [jsEmptyIn, Bool.false_eq_true, if_false]
  by_cases h1 : header = "Account ending in"
  · rw [if_pos h1]
    cases hfa : findAcct content.data <;> rfl
  · rw [if_neg h1]
    by_cases h2 : header = "Made on"
    · rw [if_pos h2]
      cases hfd : findDate none content.data <;> rfl
    · rw [if_neg h2, if_neg h]
      by_cases h4 : header = "Amount"
      · rw [if_pos h4]
        cases hfa : firstAmount content.data with
        | none => rfl
        | some df => cases df; rfl
      · rw [if_neg h4]

theorem chasePairs_desc_const (p : String → Option Int)
    (ps : List (String × String)) :
    ∀ st : ParseState, (∀ q ∈ ps, q.1 ≠ "Description") →
      (chasePairsRun p st ps).description = st.description := by
  induction ps with
  | nil => intro st _; rfl
  | cons q qs ih =>
    intro st h
    show (chasePairsRun p (chaseStep p st q.1 q.2) qs).description = _
    rw [ih _ (fun r hr => h r (List.mem_cons_of_mem _ hr)),
        chaseStep_desc_of_ne _ _ _ _ (h q (List.mem_cons_self _ _))]

/-- C10: in the label-paired layout the description is last-writer-wins:
whatever `"Description"` pairs occur earlier, a later
`("Description", v)` pair followed only by pairs with other headers leaves
the final description equal to `v`. -/
theorem description_last_writer (p : String → Option Int) (st : ParseState)
    (ps1 ps2 : List (String × String)) (v : String)
    (h : ∀ q ∈ ps2, q.1 ≠ "Description") :
    (chasePairsRun p st (ps1 ++ ("Description", v) :: ps2)).description = some v := by
  unfold chasePairsRun
  rw [List.foldl_append]
  show (chasePairsRun p
      (chaseStep p (chasePairsRun p st ps1) "Description" v) ps2).description = some v
  rw [chasePairs_desc_const p ps2 _ h, chaseStep_desc_set]

/-- Witness for C10: two `"Description"` pairs, the later value wins. -/
theorem description_last_writer_witness :
    (chasePairsRun jsDateParseModel {}
        [("Description", "First Shop"), ("Description", "Second Shop")]).description
      = some "Second Shop" :=
  description_last_writer jsDateParseModel {} [("Description", "First Shop")] []
    "Second Shop" (by simp)

/-! ### C8: the BOA description rule -/

/-- Counterexample to C8 as stated: the empty chunk (matching none of the
amount, account and date rules) sets the description to `""`, and a later
non-matching chunk overwrites it — `!this.description` is true again on
the empty string, so first-writer-wins fails for an empty first writer. -/
theorem description_overwritten_cex :
    (boaRun jsDateParseModel [""]).description = some ""
      ∧ (boaRun jsDateParseModel ["", "Hi"]).description = some "Hi"
      ∧ some "" ≠ some "Hi" := by
  exact ⟨rfl, rfl, by decide⟩

/-- C8 amended: the description is set to the first chunk matching none of
the amount, account and date rules; once it holds a *non-empty* chunk it
is never overwritten (a description holding the empty string is treated
as unset and may be overwritten); and a later chunk containing a dollar
amount sets the amount field instead of touching the description. -/
theorem description_first_nonempty_writer (p : String → Option Int)
    (st : ParseState) (c : String) :
    (∀ dd, st.description = some dd → dd ≠ "" →
        (boaStep p st c).description = some dd)
      ∧ (st.description = none → firstAmount c.data = none →
          findEndingIn c.data = none → p c = none →
          (boaStep p st c).description = some c)
      ∧ (∀ d f, firstAmount c.data = some (d, f) →
          (boaStep p st c).description = st.description
            ∧ (boaStep p st c).amount
                = some (mathRound (decRat d f * (-1000)))) := by
  refine ⟨?_, ?_, ?_⟩
  · intro dd hdd hne
    have htr : truthyStr st.description = true := by
      rw [hdd]; simpa [truthyStr, bne_iff_ne] using hne
    unfold boaStep
    cases hfa : firstAmount c.data with
    | some df => cases df; exact hdd
    | none =>
      cases hfe : findEndingIn c.data with
      | some ds => exact hdd
      | none =>
        cases hp : p c with
        | some t =>
          by_cases ht : t ≠ 0
          · simp only [if_pos ht]
            exact hdd
          · simp only [ht, if_false, descFallback, htr, if_true]
            exact hdd
        | none =>
          simp only [descFallback, htr, if_true]
          exact hdd
  · intro hdesc hfa hfe hp
    unfold boaStep
    rw [hfa, hfe, hp]
    unfold descFallback
    rw [hdesc]
    rfl
  · intro d f hfa
    unfold boaStep
    rw [hfa]
    exact ⟨rfl, rfl⟩

/-- Witness for C8's amended statement: a non-empty description survives a
later amount-bearing chunk, which sets the amount instead; and the first
non-matching chunk becomes the description. -/
theorem description_first_nonempty_writer_witness :
    (boaStep jsDateParseModel ⟨none, none, some "Coffee Shop", none⟩
        "pay $5.00 now").description = some "Coffee Shop"
      ∧ (boaStep jsDateParseModel ⟨none, none, some "Coffee Shop", none⟩
          "pay $5.00 now").amount = some (-5000)
      ∧ (boaStep jsDateParseModel {} "Hello there").description = some "Hello there" := by
  have h := description_first_nonempty_writer jsDateParseModel
    ⟨none, none, some "Coffee Shop", none⟩ "pay $5.00 now"
  have h3 := (h.2.2 ['5'] ['0', '0'] rfl)
  refine ⟨h.1 "Coffee Shop" rfl (by decide), ?_, ?_⟩
  · rw [h3.2, mathRound_amount]
    decide
  · exact (description_first_nonempty_writer jsDateParseModel {} "Hello there").2.1
      rfl rfl rfl rfl

/-! ### C9: every produced entry has a strictly negative amount -/

/-- Every value the amount setters can store is nonpositive: the matched
decimal is nonnegative and is multiplied by `-1000`. -/
theorem storedAmount_nonpos (d f : List Char) :
    mathRound (decRat d f * (-1000)) ≤ 0 := by
  rw [mathRound_amount]
  have h1 : (0 : ℤ) ≤ 1000 * (digitsToNat d : ℤ) + 10 * (digitsToNat f : ℤ) := by
    positivity
  omega

theorem boaStep_amount_nonpos (p : String → Option Int) (st : ParseState)
    (c : String) (h : ∀ a, st.amount = some a → a ≤ 0) :
    ∀ a, (boaStep p st c).amount = some a → a ≤ 0 := by
  intro a
  unfold boaStep
  cases hfa : firstAmount c.data with
  | some df =>
    cases df with
    | mk d f =>
      intro ha
      cases ha
      exact storedAmount_nonpos d f
  | none =>
    cases hfe : findEndingIn c.data with
    | some ds => exact h a
    | none =>
      cases hp : p c with
      | some t =>
        by_cases ht : t ≠ 0
        · simp only [if_pos ht]
          exact h a
        · simp only [if_neg ht]
          unfold descFallback
          by_cases htr : truthyStr st.description = true
          · simp only [if_pos htr]
            exact h a
          · simp only [if_neg htr]
            exact h a
      | none =>
        unfold descFallback
        by_cases htr : truthyStr st.description = true
        · simp only [if_pos htr]
          exact h a
        · simp only [if_neg htr]
          exact h a

theorem chaseStep_amount_nonpos (p : String → Option Int) (st : ParseState)
    (header content : String) (h : ∀ a, st.amount = some a → a ≤ 0) :
    ∀ a, (chaseStep p st header content).amount = some a → a ≤ 0 := by
  intro a
  unfold chaseStep
  simp only [jsEmptyIn, Bool.false_eq_true, if_false]
  by_cases h1 : header = "Account ending in"
  · rw [if_pos h1]
    cases hfa : findAcct content.data with
    | some ds => exact h a
    | none => exact h a
  · rw [if_neg h1]
    by_cases h2 : header = "Made on"
    · rw [if_pos h2]
      cases hfd : findDate none content.data with
      | some m0 => exact h a
      | none => exact h a
    · rw [if_neg h2]
      by_cases h3 : header = "Description"
      · rw [if_pos h3]
        exact h a
      · rw [if_neg h3]
        by_cases h4 : header = "Amount"
        · rw [if_pos h4]
          cases hfa : firstAmount content.data with
          | some df =>
            cases df with
            | mk d f =>
              intro ha
              cases ha
              exact storedAmount_nonpos d f
          | none => exact h a
        · rw [if_neg h4]
          exact h a

theorem boaRun_amount_nonpos (p : String → Option Int) (cs : List String) :
    ∀ a, (boaRun p cs).amount = some a → a ≤ 0 := by
  have haux : ∀ (l : List String) (st : ParseState),
      (∀ a, st.amount = some a → a ≤ 0) →
      ∀ a, (l.foldl (boaStep p) st).amount = some a → a ≤ 0 := by
    intro l
    induction l with
    | nil => exact fun st h => h
    | cons c cs ih =>
      intro st h
      exact ih (boaStep p st c) (boaStep_amount_nonpos p st c h)
  exact haux cs {} (fun a ha => by cases ha)

theorem chaseRun_amount_nonpos (p : String → Option Int) (cs : List String) :
    ∀ a, (chaseRun p cs).st.amount = some a → a ≤ 0 := by
  have haux : ∀ (l : List String) (ps : PairState),
      (∀ a, ps.st.amount = some a → a ≤ 0) →
      ∀ a, (l.foldl (chaseChunkStep p) ps).st.amount = some a → a ≤ 0 := by
    intro l
    induction l with
    | nil => exact fun ps h => h
    | cons c cs ih =>
      intro ps h
      exact ih (chaseChunkStep p ps c)
        (chaseStep_amount_nonpos p ps.st ps.last_message c h)
  exact haux cs {} (fun a ha => by cases ha)

/-- A successful validation pins the entry's amount to the state's amount
and forces it nonzero. -/
theorem result_amount (st : ParseState) (e : Entry) (h : result st = some e) :
    st.amount = some e.amount ∧ e.amount ≠ 0 := by
  obtain ⟨am, da, de, ac⟩ := st
  unfold result at h
  split at h
  · rename_i hcond
    cases h
    simp only [Bool.and_eq_true] at hcond
    obtain ⟨⟨⟨ha, _⟩, _⟩, _⟩ := hcond
    cases am with
    | none => simp [truthyAmount] at ha
    | some a =>
      simp only [truthyAmount, bne_iff_ne, ne_eq] at ha
      exact ⟨rfl, ha⟩
  · cases h

/-- C9: every `Entry` either vendor parse produces carries a strictly
negative amount: the setters only store `round(x * -1000)` for a matched
nonnegative decimal `x`, and validation rejects a zero amount. -/
theorem parsed_amount_negative :
    (∀ (p : String → Option Int) (cs : List String) (e : Entry),
        result (boaRun p cs) = some e → e.amount < 0)
      ∧ (∀ (p : String → Option Int) (cs : List String) (e : Entry),
          result (chaseRun p cs).st = some e → e.amount < 0) := by
  constructor
  · intro p cs e h
    obtain ⟨ham, hne⟩ := result_amount _ _ h
    have := boaRun_amount_nonpos p cs e.amount ham
    omega
  · intro p cs e h
    obtain ⟨ham, hne⟩ := result_amount _ _ h
    have := chaseRun_amount_nonpos p cs e.amount ham
    omega

/-- Witness for C9: concrete successful parses in both layouts, whose
amounts the theorem then shows negative. -/
theorem parsed_amount_negative_witness :
    result (boaRun jsDateParseModel
        ["Hello there", "$4.50", "card ending in 1234", "Jul 19, 2024"])
      = some ⟨-4500, "Hello there", "1234", ⟨some 20240719⟩⟩
      ∧ (⟨-4500, "Hello there", "1234", ⟨some 20240719⟩⟩ : Entry).amount < 0
      ∧ result (chaseRun jsDateParseModel
          ["Account ending in", "(...1234)", "Made on", "Jul 15, 2024 at 7:02 PM ET",
           "Description", "Coffee Shop", "Amount", "$4.50"]).st
        = some ⟨-4500, "Coffee Shop", "1234", ⟨some 20240715⟩⟩
      ∧ (⟨-4500, "Coffee Shop", "1234", ⟨some 20240715⟩⟩ : Entry).amount < 0 := by
  have ha : mathRound (decRat ['4'] ['5', '0'] * (-1000)) = -4500 := by
    rw [mathRound_amount]; decide
  have h1 : result (boaRun jsDateParseModel
      ["Hello there", "$4.50", "card ending in 1234", "Jul 19, 2024"])
      = some ⟨-4500, "Hello there", "1234", ⟨some 20240719⟩⟩ := by
    show result (boaRun jsDateParseModel
        ["Hello there", "$4.50", "card ending in 1234", "Jul 19, 2024"]) = _
    have hstep : boaStep jsDateParseModel ⟨none, none, some "Hello there", none⟩ "$4.50"
        = ⟨some (mathRound (decRat ['4'] ['5', '0'] * (-1000))), none,
           some "Hello there", none⟩ := rfl
    show result (List.foldl (boaStep jsDateParseModel)
        (boaStep jsDateParseModel ⟨none, none, some "Hello there", none⟩ "$4.50")
        ["card ending in 1234", "Jul 19, 2024"]) = _
    rw [hstep, ha]
    rfl
  have h2 : result (chaseRun jsDateParseModel
      ["Account ending in", "(...1234)", "Made on", "Jul 15, 2024 at 7:02 PM ET",
       "Description", "Coffee Shop", "Amount", "$4.50"]).st
      = some ⟨-4500, "Coffee Shop", "1234", ⟨some 20240715⟩⟩ := by
    have hstep : chaseChunkStep jsDateParseModel
        ⟨"Amount", ⟨none, some ⟨some 20240715⟩, some "Coffee Shop", some "1234"⟩⟩ "$4.50"
        = ⟨"$4.50", ⟨some (mathRound (decRat ['4'] ['5', '0'] * (-1000))),
            some ⟨some 20240715⟩, some "Coffee Shop", some "1234"⟩⟩ := rfl
    show result (chaseChunkStep jsDateParseModel
        ⟨"Amount", ⟨none, some ⟨some 20240715⟩, some "Coffee Shop", some "1234"⟩⟩
        "$4.50").st = _
    rw [hstep, ha]
    rfl
  exact ⟨h1, parsed_amount_negative.1 jsDateParseModel _ _ h1,
         h2, parsed_amount_negative.2 jsDateParseModel _ _ h2⟩

/-! ### C6: one normalized chunk per node -/

theorem concatAll_from (cs : List String) :
    ∀ x : String, List.foldl (· ++ ·) x cs = x ++ concatAll cs := by
  induction cs with
  | nil =>
    intro x
    show x = x ++ ""
    rw [String.append_empty]
  | cons c cs ih =>
    intro x
    show List.foldl (· ++ ·) (x ++ c) cs = x ++ concatAll (c :: cs)
    rw [ih (x ++ c)]
    have hr : concatAll (c :: cs) = ("" ++ c) ++ concatAll cs := by
      show List.foldl (· ++ ·) ("" ++ c) cs = ("" ++ c) ++ concatAll cs
      exact ih ("" ++ c)
    rw [hr, String.empty_append, String.append_assoc]

theorem concatAll_cons (c : String) (cs : List String) :
    concatAll (c :: cs) = c ++ concatAll cs := by
  show List.foldl (· ++ ·) ("" ++ c) cs = c ++ concatAll cs
  rw [concatAll_from cs ("" ++ c), String.empty_append]

/-- Processing one whole node (final fragment marked) from any buffered
text, followed by an arbitrary remaining stream: exactly one chunk is
emitted for the node — the normalization of the buffered text plus the
node's fragments in arrival order — and the remaining stream starts from
an empty buffer. -/
theorem accumRun_node_then (ys : List (String × Bool)) :
    ∀ cs : List String, cs ≠ [] → ∀ b : String,
      accumRun ⟨b⟩ (nodeFrags cs ++ ys)
        = ((accumRun ⟨""⟩ ys).1,
           normalizeChunk (b ++ concatAll cs) :: (accumRun ⟨""⟩ ys).2) := by
  intro cs
  induction cs with
  | nil => intro h; exact absurd rfl h
  | cons c cs ih =>
    intro _ b
    cases cs with
    | nil =>
      show ((accumRun (accumStep ⟨b⟩ (c, true)).1 ys).1,
            (accumStep ⟨b⟩ (c, true)).2.toList
              ++ (accumRun (accumStep ⟨b⟩ (c, true)).1 ys).2) = _
      rw [show accumStep ⟨b⟩ (c, true) = (⟨""⟩, some (normalizeChunk (b ++ c))) from rfl]
      show ((accumRun ⟨""⟩ ys).1,
            normalizeChunk (b ++ c) :: (accumRun ⟨""⟩ ys).2) = _
      rw [show concatAll [c] = "" ++ c from rfl, String.empty_append]
    | cons c2 cs2 =>
      show ((accumRun (accumStep ⟨b⟩ (c, false)).1 (nodeFrags (c2 :: cs2) ++ ys)).1,
            (accumStep ⟨b⟩ (c, false)).2.toList
              ++ (accumRun (accumStep ⟨b⟩ (c, false)).1 (nodeFrags (c2 :: cs2) ++ ys)).2)
          = _
      rw [show accumStep ⟨b⟩ (c, false) = (⟨b ++ c⟩, none) from rfl]
      show accumRun ⟨b ++ c⟩ (nodeFrags (c2 :: cs2) ++ ys) = _
      rw [ih (by simp) (b ++ c)]
      simp [concatAll_cons, String.append_assoc]

/-- C6: over any fragment stream formed of nodes whose last fragment is
marked, the accumulator emits exactly one chunk per node, in order, each
the normalization of that node's fragment contents concatenated in
arrival order, and ends (as it passes each node boundary) with an empty
buffer. -/
theorem accumulator_one_chunk_per_node (nodes : List (List String))
    (h : ∀ n ∈ nodes, n ≠ []) :
    accumRun ⟨""⟩ (nodes.map nodeFrags).flatten
      = (⟨""⟩, nodes.map (fun n => normalizeChunk (concatAll n))) := by
  induction nodes with
  | nil => rfl
  | cons n ns ih =>
    show accumRun ⟨""⟩ (nodeFrags n ++ (ns.map nodeFrags).flatten) = _
    rw [accumRun_node_then _ n (h n (List.mem_cons_self n ns)) "",
        ih (fun m hm => h m (List.mem_cons_of_mem n hm)), String.empty_append]
    rfl

/-- Witness for C6: two fragmented nodes produce exactly the two
normalized chunks. -/
theorem accumulator_one_chunk_per_node_witness :
    accumRun ⟨""⟩ (([["He", "llo "], ["wo", "rld"]].map nodeFrags).flatten)
      = (⟨""⟩, ["Hello", "world"]) := by
  have h := accumulator_one_chunk_per_node [["He", "llo "], ["wo", "rld"]] (by simp)
  exact h.trans (by decide)

/-! ### C7: normalization is not idempotent -/

/-- Counterexample to C7: deleting the soft line-break occurrence of
`"=\r=\r\n\nX"` glues a *new* `"=\r\n"` together, so a second
normalization changes the text again. -/
theorem normalize_not_idem_cex :
    normalizeChunk "=\r=\r\n\nX" = "=\r\nX"
      ∧ normalizeChunk (normalizeChunk "=\r=\r\n\nX") = "X"
      ∧ ("=\r\nX" : String) ≠ "X" := by
  exact ⟨by decide, by decide, by decide⟩

theorem jsTrim_idem (l : List Char) : jsTrim (jsTrim l) = jsTrim l := by
  unfold jsTrim
  have hstep1 :
      ((l.dropWhile jsWs).reverse.dropWhile jsWs).reverse.dropWhile jsWs
        = ((l.dropWhile jsWs).reverse.dropWhile jsWs).reverse := by
    cases hBr : ((l.dropWhile jsWs).reverse.dropWhile jsWs).reverse with
    | nil => rfl
    | cons c t =>
      have h1 : (l.dropWhile jsWs).reverse.takeWhile jsWs
            ++ (l.dropWhile jsWs).reverse.dropWhile jsWs
          = (l.dropWhile jsWs).reverse :=
        List.takeWhile_append_dropWhile jsWs (l.dropWhile jsWs).reverse
      have h2 : l.dropWhile jsWs
          = ((l.dropWhile jsWs).reverse.dropWhile jsWs).reverse
            ++ ((l.dropWhile jsWs).reverse.takeWhile jsWs).reverse := by
        conv_lhs => rw [← List.reverse_reverse (l.dropWhile jsWs), ← h1]
        rw [List.reverse_append]
      rw [hBr] at h2
      have h3 := List.head?_dropWhile_not jsWs l
      rw [h2] at h3
      simp only [List.cons_append, List.head?_cons] at h3
      rw [List.dropWhile_cons_of_neg (by simp [h3])]
  rw [hstep1, List.reverse_reverse, List.dropWhile_idempotent]

/-- Sufficiency half of the amended C7: stability of the normalized form
under the soft line-break removal and the tag stripping makes a second
normalization a no-op (the trim step alone is always idempotent, by
`jsTrim_idem`). -/
theorem normalize_idem_of_stable (s : String)
    (h1 : removeSoftBreaks (normalizeChunk s).data = (normalizeChunk s).data)
    (h2 : stripTags (normalizeChunk s).data = (normalizeChunk s).data) :
    normalizeChunk (normalizeChunk s) = normalizeChunk s := by
  show String.mk (jsTrim (stripTags (removeSoftBreaks (normalizeChunk s).data)))
      = normalizeChunk s
  rw [h1, h2]
  show String.mk (jsTrim (jsTrim (stripTags (removeSoftBreaks s.data)))) = _
  rw [jsTrim_idem]
  rfl



/-! ### C5 support -/


theorem takeN_all (pch : Char → Bool) :
    ∀ (a r : List Char) (n : Nat), (∀ c ∈ a, pch c = true) → a.length = n →
      takeN pch n (a ++ r) = some (a, r) := by
  intro a
  induction a with
  | nil =>
    intro r n _ hn
    cases hn
    rfl
  | cons c a ih =>
    intro r n h hn
    cases hn
    show takeN pch (a.length + 1) (c :: (a ++ r)) = _
    unfold takeN
    rw [h c (List.mem_cons_self c a), if_pos rfl]
    rw [ih r a.length (fun x hx => h x (List.mem_cons_of_mem c hx)) rfl]
    rfl

theorem dropLit_self : ∀ (a r : List Char), dropLit a (a ++ r) = some r := by
  intro a
  induction a with
  | nil => intro r; rfl
  | cons c a ih =>
    intro r
    show dropLit (c :: a) (c :: (a ++ r)) = some r
    unfold dropLit
    rw [if_pos rfl]
    exact ih r

theorem digits12_append (d r : List Char)
    (hd : ∀ c ∈ d, c.isDigit = true) (hdl : d.length = 1 ∨ d.length = 2)
    (hr : ∀ c, r.head? = some c → c.isDigit = false) :
    digits12 (d ++ r) = some (d, r) := by
  match d, hdl with
  | [a], _ =>
    have ha : a.isDigit = true := hd a (List.mem_cons_self a [])
    cases r with
    | nil => simp [digits12, ha]
    | cons c cs =>
      have hc := hr c rfl
      simp [digits12, ha, hc]
  | [a, b], _ =>
    have ha : a.isDigit = true := hd a (by simp)
    have hb : b.isDigit = true := hd b (by simp)
    simp [digits12, ha, hb]
  | [], hl => simp at hl
  | a :: b :: c :: t, hl => simp at hl

theorem alphaSpan_all (z : List Char) (hz : ∀ c ∈ z, c.isAlpha = true) :
    alphaSpan z = (z, []) := by
  induction z with
  | nil => rfl
  | cons c z ih =>
    unfold alphaSpan
    rw [hz c (List.mem_cons_self c z), if_pos rfl,
        ih (fun x hx => hz x (List.mem_cons_of_mem c hx))]

theorem digit_beq_eq_false (c x : Char) (hc : c.isDigit = true)
    (hx : x.isDigit = false) : (c == x) = false := by
  cases hq : c == x with
  | false => rfl
  | true =>
    have : c = x := eq_of_beq hq
    rw [this] at hc
    rw [hc] at hx
    cases hx

theorem noAT_cons_not_a (c : Char) (cs : List Char) (h : (c == 'a') = false) :
    noAT (c :: cs) = noAT cs := by
  show ((!(c == 'a' && (cs.head? == some 't'))) && noAT cs) = noAT cs
  rw [h]
  simp

theorem noAT_digits_append (dl rest : List Char)
    (hd : ∀ c ∈ dl, c.isDigit = true) :
    noAT (dl ++ rest) = noAT rest := by
  induction dl with
  | nil => rfl
  | cons c dl ih =>
    have hc : (c == 'a') = false :=
      digit_beq_eq_false c 'a' (hd c (List.mem_cons_self c dl)) (by decide)
    show ((!(c == 'a' && ((dl ++ rest).head? == some 't'))) && noAT (dl ++ rest))
        = noAT rest
    rw [hc]
    simp only [Bool.false_and, Bool.not_false, Bool.true_and]
    exact ih (fun x hx => hd x (List.mem_cons_of_mem c hx))

theorem indexOfSub_at (post : List Char) :
    ∀ pre : List Char, noAT pre = true →
      indexOfSub ['a', 't'] (pre ++ 'a' :: 't' :: post) = some pre.length := by
  intro pre
  induction pre with
  | nil =>
    intro _
    show indexOfSub ['a', 't'] ('a' :: 't' :: post) = some 0
    unfold indexOfSub
    rw [if_pos (by simp [begWith])]
  | cons c cs ih =>
    intro h
    have h' : ((!(c == 'a' && cs.head? == some 't')) && noAT cs) = true := h
    rw [Bool.and_eq_true] at h'
    obtain ⟨h1, h2⟩ := h'
    have hbw : begWith ['a', 't'] (c :: (cs ++ 'a' :: 't' :: post)) = false := by
      cases cs with
      | nil => simp [begWith]
      | cons c2 cs2 =>
        have hno : ¬(c = 'a' ∧ c2 = 't') := by
          rintro ⟨hca, hct⟩
          rw [hca, hct] at h1
          simp at h1
        show begWith ['a', 't'] (c :: c2 :: (cs2 ++ 'a' :: 't' :: post)) = false
        by_cases hca : c = 'a'
        · have hct : c2 ≠ 't' := fun hc2 => hno ⟨hca, hc2⟩
          subst hca
          simp [begWith, Ne.symm hct]
        · simp [begWith, Ne.symm hca]
    show indexOfSub ['a', 't'] (c :: (cs ++ 'a' :: 't' :: post)) = some (cs.length + 1)
    unfold indexOfSub
    rw [hbw]
    simp only [Bool.false_eq_true, if_false]
    rw [ih h2]
    rfl


set_option maxHeartbeats 1000000 in
theorem dateMatchAt_compound (mon3 : List Char)
    (hm3 : mon3.length = 3) (hma : ∀ c ∈ mon3, c.isAlpha = true)
    (d y hh mi z apl : List Char)
    (hd : ∀ c ∈ d, c.isDigit = true) (hdl : d.length = 1 ∨ d.length = 2)
    (hy : ∀ c ∈ y, c.isDigit = true) (hyl : y.length = 4)
    (hhd : ∀ c ∈ hh, c.isDigit = true) (hhl : hh.length = 1 ∨ hh.length = 2)
    (hmd : ∀ c ∈ mi, c.isDigit = true) (hml : mi.length = 2)
    (hap : apl = ['A', 'M'] ∨ apl = ['P', 'M'])
    (hz : ∀ c ∈ z, c.isAlpha = true) (hzl : 2 ≤ z.length) (hzl4 : z.length ≤ 4) :
    dateMatchAt (mon3 ++ (' ' :: (d ++ (',' :: (' ' :: (y ++ (' ' :: ('a' :: ('t' :: (' ' :: (hh ++ (':' :: (mi ++ (' ' :: (apl ++ (' ' :: z)))))))))))))))) = some (mon3 ++ (' ' :: (d ++ (',' :: (' ' :: (y ++ (' ' :: ('a' :: ('t' :: (' ' :: (hh ++ (':' :: (mi ++ (' ' :: (apl ++ (' ' :: z)))))))))))))))) := by
  have e1 : takeN Char.isAlpha 3 (mon3 ++ (' ' :: (d ++ (',' :: (' ' :: (y ++ (' ' :: ('a' :: ('t' :: (' ' :: (hh ++ (':' :: (mi ++ (' ' :: (apl ++ (' ' :: z)))))))))))))))) = some (mon3, (' ' :: (d ++ (',' :: (' ' :: (y ++ (' ' :: ('a' :: ('t' :: (' ' :: (hh ++ (':' :: (mi ++ (' ' :: (apl ++ (' ' :: z)))))))))))))))) :=
    takeN_all Char.isAlpha mon3 _ _ hma hm3
  have e2 : dropLit [' '] (' ' :: (d ++ (',' :: (' ' :: (y ++ (' ' :: ('a' :: ('t' :: (' ' :: (hh ++ (':' :: (mi ++ (' ' :: (apl ++ (' ' :: z))))))))))))))) = some (d ++ (',' :: (' ' :: (y ++ (' ' :: ('a' :: ('t' :: (' ' :: (hh ++ (':' :: (mi ++ (' ' :: (apl ++ (' ' :: z)))))))))))))) := rfl
  have e3 : digits12 (d ++ (',' :: (' ' :: (y ++ (' ' :: ('a' :: ('t' :: (' ' :: (hh ++ (':' :: (mi ++ (' ' :: (apl ++ (' ' :: z)))))))))))))) = some (d, (',' :: (' ' :: (y ++ (' ' :: ('a' :: ('t' :: (' ' :: (hh ++ (':' :: (mi ++ (' ' :: (apl ++ (' ' :: z)))))))))))))) :=
    digits12_append d _ hd hdl (fun c hcc => by cases hcc; decide)
  have e4 : dropLit [',', ' '] (',' :: (' ' :: (y ++ (' ' :: ('a' :: ('t' :: (' ' :: (hh ++ (':' :: (mi ++ (' ' :: (apl ++ (' ' :: z))))))))))))) = some (y ++ (' ' :: ('a' :: ('t' :: (' ' :: (hh ++ (':' :: (mi ++ (' ' :: (apl ++ (' ' :: z))))))))))) := rfl
  have e5 : takeN Char.isDigit 4 (y ++ (' ' :: ('a' :: ('t' :: (' ' :: (hh ++ (':' :: (mi ++ (' ' :: (apl ++ (' ' :: z))))))))))) = some (y, (' ' :: ('a' :: ('t' :: (' ' :: (hh ++ (':' :: (mi ++ (' ' :: (apl ++ (' ' :: z))))))))))) :=
    takeN_all Char.isDigit y _ _ hy hyl
  have e6 : dropLit [' ', 'a', 't', ' '] (' ' :: ('a' :: ('t' :: (' ' :: (hh ++ (':' :: (mi ++ (' ' :: (apl ++ (' ' :: z)))))))))) = some (hh ++ (':' :: (mi ++ (' ' :: (apl ++ (' ' :: z)))))) := rfl
  have e7 : digits12 (hh ++ (':' :: (mi ++ (' ' :: (apl ++ (' ' :: z)))))) = some (hh, (':' :: (mi ++ (' ' :: (apl ++ (' ' :: z)))))) :=
    digits12_append hh _ hhd hhl (fun c hcc => by cases hcc; decide)
  have e8 : dropLit [':'] (':' :: (mi ++ (' ' :: (apl ++ (' ' :: z))))) = some (mi ++ (' ' :: (apl ++ (' ' :: z)))) := rfl
  have e9 : takeN Char.isDigit 2 (mi ++ (' ' :: (apl ++ (' ' :: z)))) = some (mi, (' ' :: (apl ++ (' ' :: z)))) :=
    takeN_all Char.isDigit mi _ _ hmd hml
  have e10 : dropLit [' '] (' ' :: (apl ++ (' ' :: z))) = some (apl ++ (' ' :: z)) := rfl
  have e11 : ampmAt (apl ++ (' ' :: z)) = some (apl, (' ' :: z)) := by
    rcases hap with h | h <;> subst h <;> rfl
  have e12 : dropLit [' '] (' ' :: z) = some z := rfl
  have e13 : alphaSpan z = (z, []) := alphaSpan_all z hz
  have hc1 : decide (2 ≤ z.length) = true := decide_eq_true hzl
  have hc2 : decide (z.length ≤ 4) = true := decide_eq_true hzl4
  have e14 : boundaryAfter ([] : List Char) = true := rfl
  simp only [dateMatchAt, e1, e2, e3, e4, e5, e6, e7, e8, e9, e10, e11, e12,
    e13, e14, hc1, hc2, Bool.true_and, Bool.and_true, eq_self_iff_true, if_true]


theorem findDate_of_matchAt (l m0 : List Char) (h : dateMatchAt l = some m0) :
    findDate none l = some m0 := by
  cases l with
  | nil =>
    exfalso
    have hnil : dateMatchAt ([] : List Char) = none := rfl
    rw [hnil] at h
    cases h
  | cons c cs =>
    show (match dateMatchAt (c :: cs) with
          | some m => some m
          | none => findDate (some c) cs) = some m0
    rw [h]

theorem madeOnDatePart_split (pre post : List Char) (h : noAT pre = true) :
    madeOnDatePart (pre ++ 'a' :: 't' :: post) = pre := by
  unfold madeOnDatePart
  rw [indexOfSub_at post pre h]
  exact List.take_left pre ('a' :: 't' :: post)

theorem noAT_append (l1 l2 : List Char) (h1 : noAT l1 = true) (h2 : noAT l2 = true)
    (hb : (l2.head? == some 't') = false) : noAT (l1 ++ l2) = true := by
  induction l1 with
  | nil => exact h2
  | cons c cs ih =>
    have h1' : ((!(c == 'a' && cs.head? == some 't')) && noAT cs) = true := h1
    rw [Bool.and_eq_true] at h1'
    obtain ⟨h1a, h1b⟩ := h1'
    show ((!(c == 'a' && ((cs ++ l2).head? == some 't'))) && noAT (cs ++ l2)) = true
    rw [Bool.and_eq_true]
    refine ⟨?_, ih h1b⟩
    cases cs with
    | nil =>
      show (!(c == 'a' && (l2.head? == some 't'))) = true
      rw [hb]
      simp
    | cons c2 cs2 =>
      show (!(c == 'a' && ((c2 :: (cs2 ++ l2)).head? == some 't'))) = true
      exact h1a

/-- The facts about the twelve month abbreviations the compound-date proof
needs: three letters each, and no embedded adjacent `'a','t'` pair. -/
theorem month_facts : ∀ mon ∈ monthAbbrevs,
    mon.data.length = 3 ∧ (∀ c ∈ mon.data, c.isAlpha = true)
      ∧ noAT mon.data = true := by decide

/-- C5: in the label-paired layout, for every `"Made on"` value of the
compound form `"Mon D, YYYY at H:MM AM|PM ZZZ"` (a recognized month
abbreviation, 1-2 digit day, 4 digit year, 1-2 digit hour, 2 digit
minutes, AM or PM, 2-4 letter zone), the stored date is `Date.parse`
applied to exactly the substring preceding the literal `"at"` token —
`"Mon D, YYYY "` — so the time of day and the timezone suffix have no
effect on the stored date. -/
theorem made_on_uses_date_portion (p : String → Option Int) (st : ParseState)
    (mon : String) (hmon : mon ∈ monthAbbrevs)
    (d y hh mi z : List Char) (ap : String)
    (hd : ∀ c ∈ d, c.isDigit = true) (hdl : d.length = 1 ∨ d.length = 2)
    (hy : ∀ c ∈ y, c.isDigit = true) (hyl : y.length = 4)
    (hhd : ∀ c ∈ hh, c.isDigit = true) (hhl : hh.length = 1 ∨ hh.length = 2)
    (hmd : ∀ c ∈ mi, c.isDigit = true) (hml : mi.length = 2)
    (hap : ap = "AM" ∨ ap = "PM")
    (hz : ∀ c ∈ z, c.isAlpha = true) (hzl : 2 ≤ z.length) (hzl4 : z.length ≤ 4) :
    (chaseStep p st "Made on" (mon ++ " " ++ String.mk d ++ ", " ++ String.mk y ++ " at " ++ String.mk hh ++ ":" ++ String.mk mi ++ " " ++ ap ++ " " ++ String.mk z)).date
      = some ⟨p (mon ++ " " ++ String.mk d ++ ", " ++ String.mk y ++ " ")⟩ := by
  obtain ⟨hm3, hma, hmnoat⟩ := month_facts mon hmon
  have hapl : ap.data = ['A', 'M'] ∨ ap.data = ['P', 'M'] := by
    rcases hap with h | h
    · exact Or.inl (by rw [h])
    · exact Or.inr (by rw [h])
  have hdata : ((mon ++ " " ++ String.mk d ++ ", " ++ String.mk y ++ " at " ++ String.mk hh ++ ":" ++ String.mk mi ++ " " ++ ap ++ " " ++ String.mk z) : String).data = (mon.data ++ (' ' :: (d ++ (',' :: (' ' :: (y ++ (' ' :: ('a' :: ('t' :: (' ' :: (hh ++ (':' :: (mi ++ (' ' :: (ap.data ++ (' ' :: z)))))))))))))))) := by
    show ((((((((((((mon.data ++ [' ']) ++ d) ++ [',', ' ']) ++ y) ++ [' ', 'a', 't', ' ']) ++ hh) ++ [':']) ++ mi) ++ [' ']) ++ ap.data) ++ [' ']) ++ z) = (mon.data ++ (' ' :: (d ++ (',' :: (' ' :: (y ++ (' ' :: ('a' :: ('t' :: (' ' :: (hh ++ (':' :: (mi ++ (' ' :: (ap.data ++ (' ' :: z))))))))))))))))
    simp [List.append_assoc]
  have hmatch := dateMatchAt_compound mon.data hm3 hma d y hh mi z ap.data
    hd hdl hy hyl hhd hhl hmd hml hapl hz hzl hzl4
  have hfind := findDate_of_matchAt _ _ hmatch
  have hsplit : (mon.data ++ (' ' :: (d ++ (',' :: (' ' :: (y ++ (' ' :: ('a' :: ('t' :: (' ' :: (hh ++ (':' :: (mi ++ (' ' :: (ap.data ++ (' ' :: z)))))))))))))))) = (mon.data ++ (' ' :: (d ++ (',' :: (' ' :: (y ++ [' '])))))) ++ 'a' :: 't' :: (' ' :: (hh ++ (':' :: (mi ++ (' ' :: (ap.data ++ (' ' :: z))))))) := by
    simp [List.append_assoc]
  have hrest : noAT (' ' :: (d ++ (',' :: (' ' :: (y ++ [' ']))))) = true := by
    rw [noAT_cons_not_a _ _ (by decide), noAT_digits_append d _ hd,
        noAT_cons_not_a _ _ (by decide), noAT_cons_not_a _ _ (by decide),
        noAT_digits_append y _ hy]
    decide
  have hnoat : noAT (mon.data ++ (' ' :: (d ++ (',' :: (' ' :: (y ++ [' '])))))) = true := by
    refine noAT_append _ _ hmnoat ?_ rfl
    exact hrest
  have hpart : madeOnDatePart (mon.data ++ (' ' :: (d ++ (',' :: (' ' :: (y ++ (' ' :: ('a' :: ('t' :: (' ' :: (hh ++ (':' :: (mi ++ (' ' :: (ap.data ++ (' ' :: z)))))))))))))))) = (mon.data ++ (' ' :: (d ++ (',' :: (' ' :: (y ++ [' '])))))) := by
    rw [hsplit]
    exact madeOnDatePart_split _ _ hnoat
  have hstr : String.mk (mon.data ++ (' ' :: (d ++ (',' :: (' ' :: (y ++ [' '])))))) = (mon ++ " " ++ String.mk d ++ ", " ++ String.mk y ++ " ") := by
    apply String.ext
    show (mon.data ++ (' ' :: (d ++ (',' :: (' ' :: (y ++ [' '])))))) = (((((mon.data ++ [' ']) ++ d) ++ [',', ' ']) ++ y) ++ [' '])
    simp [List.append_assoc]
  show (match findDate none (mon ++ " " ++ String.mk d ++ ", " ++ String.mk y
        ++ " at " ++ String.mk hh ++ ":" ++ String.mk mi ++ " " ++ ap ++ " "
        ++ String.mk z : String).data with
      | some m0 => { st with date := some ⟨p (String.mk (madeOnDatePart m0))⟩ }
      | none => st).date = _
  rw [hdata, hfind]
  show some (JSDate.mk (p (String.mk (madeOnDatePart (mon.data ++ (' ' :: (d ++ (',' :: (' ' :: (y ++ (' ' :: ('a' :: ('t' :: (' ' :: (hh ++ (':' :: (mi ++ (' ' :: (ap.data ++ (' ' :: z)))))))))))))))))))) = some (JSDate.mk (p (mon ++ " " ++ String.mk d ++ ", " ++ String.mk y ++ " ")))
  rw [hpart, hstr]


/-- Witness for C5: `"Jul 15, 2024 at 7:02 PM ET"` stores the calendar date
July 15, 2024 (as the model oracle's date code), determined by the date
portion `"Jul 15, 2024 "` alone. -/
theorem made_on_uses_date_portion_witness :
    (chaseStep jsDateParseModel {} "Made on" "Jul 15, 2024 at 7:02 PM ET").date
      = some ⟨some 20240715⟩
      ∧ jsDateParseModel "Jul 15, 2024 " = some 20240715 := by
  have h := made_on_uses_date_portion jsDateParseModel {} "Jul" (by decide)
      ['1', '5'] ['2', '0', '2', '4'] ['7'] ['0', '2'] ['E', 'T'] "PM"
      (by decide) (by decide) (by decide) (by decide) (by decide) (by decide)
      (by decide) (by decide) (Or.inr rfl) (by decide) (by decide) (by decide)
  rw [show ("Jul" ++ " " ++ String.mk ['1', '5'] ++ ", "
      ++ String.mk ['2', '0', '2', '4'] ++ " at " ++ String.mk ['7'] ++ ":"
      ++ String.mk ['0', '2'] ++ " " ++ "PM" ++ " " ++ String.mk ['E', 'T']
      : String) = "Jul 15, 2024 at 7:02 PM ET" from by decide] at h
  rw [show ("Jul" ++ " " ++ String.mk ['1', '5'] ++ ", "
      ++ String.mk ['2', '0', '2', '4'] ++ " " : String) = "Jul 15, 2024 "
      from by decide] at h
  refine ⟨?_, by decide⟩
  rw [h]
  decide


/-! ### C7, necessity half: each normalization step never lengthens its
input, and preserves the length only when it is the identity, so an
idempotent normalization forces every step to be stable on the output. -/

theorem removeSoftBreaks_length_le (l : List Char) :
    (removeSoftBreaks l).length ≤ l.length := by
  induction l using removeSoftBreaks.induct with
  | case1 cs ih =>
    rw [show removeSoftBreaks ('=' :: '\r' :: '\n' :: cs) = removeSoftBreaks cs from rfl]
    simp only [List.length_cons]
    omega
  | case2 c cs hne ih =>
    have hred : removeSoftBreaks (c :: cs) = c :: removeSoftBreaks cs := by
      simp [removeSoftBreaks]
    rw [hred]
    simp only [List.length_cons]
    omega
  | case3 => simp [removeSoftBreaks]

theorem removeSoftBreaks_eq_of_length (l : List Char)
    (h : (removeSoftBreaks l).length = l.length) : removeSoftBreaks l = l := by
  induction l using removeSoftBreaks.induct with
  | case1 cs ih =>
    exfalso
    have h1 := removeSoftBreaks_length_le cs
    rw [show removeSoftBreaks ('=' :: '\r' :: '\n' :: cs) = removeSoftBreaks cs from rfl]
      at h
    simp only [List.length_cons] at h
    omega
  | case2 c cs hne ih =>
    have hred : removeSoftBreaks (c :: cs) = c :: removeSoftBreaks cs := by
      simp [removeSoftBreaks]
    rw [hred] at h ⊢
    simp only [List.length_cons] at h
    rw [ih (by omega)]
  | case3 => rfl

theorem stripTagsF_length_le (n : ℕ) (l : List Char) :
    (stripTagsF n l).length ≤ l.length := by
  induction n, l using stripTagsF.induct with
  | case1 t => cases t <;> simp [stripTagsF]
  | case2 l hl =>
    cases l with
    | nil => exact absurd rfl hl
    | cons c cs => exact le_rfl
  | case3 fuel cs r hgt ih =>
    have hred : stripTagsF (fuel + 1) ('<' :: '=' :: cs) = stripTagsF fuel r := by
      simp [stripTagsF, hgt]
    rw [hred]
    have hlen := dropThroughGt_length cs r hgt
    simp only [List.length_cons]
    omega
  | case4 fuel cs hgt =>
    have hred : stripTagsF (fuel + 1) ('<' :: '=' :: cs) = '<' :: '=' :: cs := by
      simp [stripTagsF, hgt]
    rw [hred]
  | case5 fuel c cs hne ih =>
    have hred : stripTagsF (fuel + 1) (c :: cs) = c :: stripTagsF fuel cs := by
      simp [stripTagsF]
    rw [hred]
    simp only [List.length_cons]
    omega

theorem stripTagsF_eq_of_length (n : ℕ) (l : List Char)
    (h : (stripTagsF n l).length = l.length) : stripTagsF n l = l := by
  induction n, l using stripTagsF.induct with
  | case1 t => cases t <;> rfl
  | case2 l hl =>
    cases l with
    | nil => exact absurd rfl hl
    | cons c cs => rfl
  | case3 fuel cs r hgt ih =>
    exfalso
    have hred : stripTagsF (fuel + 1) ('<' :: '=' :: cs) = stripTagsF fuel r := by
      simp [stripTagsF, hgt]
    rw [hred] at h
    have h1 := stripTagsF_length_le fuel r
    have hlen := dropThroughGt_length cs r hgt
    simp only [List.length_cons] at h
    omega
  | case4 fuel cs hgt =>
    simp [stripTagsF, hgt]
  | case5 fuel c cs hne ih =>
    have hred : stripTagsF (fuel + 1) (c :: cs) = c :: stripTagsF fuel cs := by
      simp [stripTagsF]
    rw [hred] at h ⊢
    simp only [List.length_cons] at h
    rw [ih (by omega)]

theorem stripTags_length_le (l : List Char) : (stripTags l).length ≤ l.length :=
  stripTagsF_length_le l.length l

theorem stripTags_eq_of_length (l : List Char)
    (h : (stripTags l).length = l.length) : stripTags l = l :=
  stripTagsF_eq_of_length l.length l h

theorem dropWhile_length_le (p : Char → Bool) (l : List Char) :
    (l.dropWhile p).length ≤ l.length := by
  have hd : l.takeWhile p ++ l.dropWhile p = l := List.takeWhile_append_dropWhile p l
  have : (l.takeWhile p).length + (l.dropWhile p).length = l.length := by
    rw [← List.length_append, hd]
  omega

theorem dropWhile_eq_of_length (p : Char → Bool) (l : List Char)
    (h : (l.dropWhile p).length = l.length) : l.dropWhile p = l := by
  have hd : l.takeWhile p ++ l.dropWhile p = l := List.takeWhile_append_dropWhile p l
  have hlen : (l.takeWhile p).length + (l.dropWhile p).length = l.length := by
    rw [← List.length_append, hd]
  have ht : l.takeWhile p = [] := List.length_eq_zero.mp (by omega)
  rw [ht] at hd
  simpa using hd

theorem jsTrim_length_le (l : List Char) : (jsTrim l).length ≤ l.length := by
  unfold jsTrim
  rw [List.length_reverse]
  calc ((l.dropWhile jsWs).reverse.dropWhile jsWs).length
      ≤ (l.dropWhile jsWs).reverse.length := dropWhile_length_le _ _
    _ = (l.dropWhile jsWs).length := List.length_reverse _
    _ ≤ l.length := dropWhile_length_le _ _

theorem jsTrim_eq_of_length (l : List Char) (h : (jsTrim l).length = l.length) :
    jsTrim l = l := by
  unfold jsTrim at h ⊢
  rw [List.length_reverse] at h
  have h1 : ((l.dropWhile jsWs).reverse.dropWhile jsWs).length
      ≤ (l.dropWhile jsWs).length := by
    calc ((l.dropWhile jsWs).reverse.dropWhile jsWs).length
        ≤ (l.dropWhile jsWs).reverse.length := dropWhile_length_le _ _
      _ = (l.dropWhile jsWs).length := List.length_reverse _
  have h2 : (l.dropWhile jsWs).length ≤ l.length := dropWhile_length_le _ _
  have hA : l.dropWhile jsWs = l := dropWhile_eq_of_length _ _ (by omega)
  rw [hA] at h ⊢
  have hB : (l.reverse.dropWhile jsWs).length = l.reverse.length := by
    rw [List.length_reverse]
    omega
  rw [dropWhile_eq_of_length _ _ hB, List.reverse_reverse]

/-- Idempotence forces stability: if renormalizing leaves the chunk
unchanged, then the normalized text is a fixpoint of the soft line-break
removal and of the tag stripping (the trim step is handled by the length
argument as well). -/
theorem normalize_stable_of_idem (s : String)
    (h : normalizeChunk (normalizeChunk s) = normalizeChunk s) :
    removeSoftBreaks (normalizeChunk s).data = (normalizeChunk s).data
      ∧ stripTags (normalizeChunk s).data = (normalizeChunk s).data := by
  have hdat : jsTrim (stripTags (removeSoftBreaks (normalizeChunk s).data))
      = (normalizeChunk s).data := congrArg String.data h
  have l1 : (removeSoftBreaks (normalizeChunk s).data).length
      ≤ (normalizeChunk s).data.length := removeSoftBreaks_length_le _
  have l2 : (stripTags (removeSoftBreaks (normalizeChunk s).data)).length
      ≤ (removeSoftBreaks (normalizeChunk s).data).length := stripTags_length_le _
  have l3 : (jsTrim (stripTags (removeSoftBreaks (normalizeChunk s).data))).length
      ≤ (stripTags (removeSoftBreaks (normalizeChunk s).data)).length :=
    jsTrim_length_le _
  have hlen : (jsTrim (stripTags (removeSoftBreaks (normalizeChunk s).data))).length
      = (normalizeChunk s).data.length := by rw [hdat]
  have e1 : removeSoftBreaks (normalizeChunk s).data = (normalizeChunk s).data :=
    removeSoftBreaks_eq_of_length _ (by omega)
  refine ⟨e1, ?_⟩
  rw [e1] at hdat
  have l2' : (stripTags (normalizeChunk s).data).length
      ≤ (normalizeChunk s).data.length := stripTags_length_le _
  have l3' : (jsTrim (stripTags (normalizeChunk s).data)).length
      ≤ (stripTags (normalizeChunk s).data).length := jsTrim_length_le _
  have hlen2 : (jsTrim (stripTags (normalizeChunk s).data)).length
      = (normalizeChunk s).data.length := by rw [hdat]
  exact stripTags_eq_of_length _ (by omega)

/-- C7 amended: normalization is idempotent at a chunk exactly when its
normalized form is already free of soft line-break sequences and of
tag-remnant matches; in general a removal can glue a new occurrence
together and renormalization changes the text, as in the counterexample. -/
theorem normalize_idem_iff_stable (s : String) :
    normalizeChunk (normalizeChunk s) = normalizeChunk s ↔
      (removeSoftBreaks (normalizeChunk s).data = (normalizeChunk s).data
        ∧ stripTags (normalizeChunk s).data = (normalizeChunk s).data) := by
  constructor
  · exact normalize_stable_of_idem s
  · intro hst
    exact normalize_idem_of_stable s hst.1 hst.2

/-- Witness for the amended C7: a whitespace-padded prose chunk has a
stable normalized form, so renormalizing leaves it unchanged. -/
theorem normalize_idem_iff_stable_witness :
    normalizeChunk (normalizeChunk "  Coffee Shop  ") = normalizeChunk "  Coffee Shop  " :=
  (normalize_idem_iff_stable "  Coffee Shop  ").mpr ⟨by decide, by decide⟩

end YnabSync
